import Mathlib

/-!
Verification of the eth-blockchain-parser block-range ingestion pipeline.

The Go sources are shallowly embedded: machine integers (`uint64`) are
modelled as `Nat` with explicit reduction modulo `2 ^ 64` where Go's
wrap-around matters, `big.Int` transaction values as `Nat` (on-chain
values are non-negative), Go strings and file contents as `List Char` /
`String`, Go maps as association lists, and the SQLite persistence sink
as an abstract success flag.  Functions keep their source names where
possible.
-/

namespace EthParser

/-! ### Decimal digit rendering and parsing

Shared infrastructure for the embeddings of `fmt.Sprintf` with the decimal
verb, `shopspring/decimal.Decimal.String`, `strconv.Atoi` and
`strconv.ParseFloat`.
-/

/-- Big-endian decimal digit characters of `n`, accumulator style with
explicit fuel so that the kernel can evaluate the definition.  The fuel
`n + 1` in `natChars` always suffices because the argument shrinks by a
factor of ten per step. -/
def natCharsAux : Nat → Nat → List Char → List Char
  | 0, _, acc => acc
  | fuel + 1, n, acc =>
    if n < 10 then Nat.digitChar n :: acc
    else natCharsAux fuel (n / 10) (Nat.digitChar (n % 10) :: acc)

/-- Decimal rendering of a natural number, `123 ↦ ['1', '2', '3']`
(Go's `fmt.Sprintf` with the decimal verb / `big.Int.String`). -/
def natChars (n : Nat) : List Char := natCharsAux (n + 1) n []

/-- Fuel-free recursive description of decimal rendering, used in proofs. -/
def digitsBE (n : Nat) : List Char :=
  if _h : n < 10 then [Nat.digitChar n]
  else digitsBE (n / 10) ++ [Nat.digitChar (n % 10)]
decreasing_by omega

/-- Numeric value of a digit character (`'3' ↦ 3`). -/
def charVal (c : Char) : Nat := c.toNat - 48

/-- One step of big-endian digit accumulation. -/
def valStep (a : Nat) (c : Char) : Nat := a * 10 + charVal c

/-- Value of a big-endian digit string. -/
def valBE (cs : List Char) : Nat := cs.foldl valStep 0

/-- Character-class test used by Go's numeric parsers: `'0' <= c && c <= '9'`. -/
def isDigitChar (c : Char) : Bool := 48 ≤ c.toNat && c.toNat ≤ 57

/-- Parse a run of decimal digits left to right; fails on any non-digit
character (the digit loop shared by `strconv.Atoi` / `strconv.ParseFloat`). -/
def parseNatAux : List Char → Nat → Option Nat
  | [], acc => some acc
  | c :: cs, acc => if isDigitChar c then parseNatAux cs (valStep acc c) else none

/-- Parse a non-empty all-digit string to its value. -/
def parseNatChars (cs : List Char) : Option Nat :=
  match cs with
  | [] => none
  | _ :: _ => parseNatAux cs 0

/-! ### `gweiToETH` (src/pkg/filtering/filtering.go, lines 233-244)

The Go function parses the `big.Int` wei value into a
`shopspring/decimal.Decimal`, shifts the exponent by `-18`, rounds to five
decimal places and prints the result.  For non-negative inputs shopspring's
`Round(5)` (rescale to six places, add five, divide by ten) equals
`(v + 5 * 10 ^ 12) / 10 ^ 13` on the integer coefficient, and its
`String()` prints the integer part, then the fractional part left-padded
to five digits with trailing zeros trimmed (no decimal point when the
trimmed fraction is empty). -/

/-- Remove trailing `'0'` characters (the fractional-part trimming done by
shopspring's `Decimal.String`). -/
def trimTrailingZeros (cs : List Char) : List Char :=
  (cs.reverse.dropWhile (fun c => c = '0')).reverse

/-- Left-pad a digit string with `'0'` to the given width. -/
def padLeftZeros (width : Nat) (cs : List Char) : List Char :=
  List.replicate (width - cs.length) '0' ++ cs

/-- The coefficient of `(v * 10 ^ -18).Round(5)` at exponent `-5`:
round-half-up division of `v` by `10 ^ 13`. -/
def round5Scaled (v : Nat) : Nat := (v + 5 * 10 ^ 12) / 10 ^ 13

/-- shopspring `Decimal.String` for a value `n * 10 ^ -5`. -/
def renderScaled5 (n : Nat) : List Char :=
  let intPart := natChars (n / 10 ^ 5)
  let fracPart := trimTrailingZeros (padLeftZeros 5 (natChars (n % 10 ^ 5)))
  if fracPart.isEmpty then intPart else intPart ++ '.' :: fracPart

/-- `gweiToETH` (filtering.go:233): the wei value printed as an ETH amount
with five decimal places, rounded half-up. -/
def gweiToETH (gwei : Nat) : String := String.mk (renderScaled5 (round5Scaled gwei))

/-! ### `strconv.ParseFloat` and `strconv.Atoi` models

`ParseFloat` is modelled in two stages, exactly as Go specifies it: the
string is first read as an exact decimal value (a mantissa/scale pair
`mant / 10 ^ scale`), which is then correctly rounded to the nearest
IEEE 754 binary64 value (round-to-nearest, ties to even), with a range
error on overflow.  Each finite non-negative binary64 value is
represented by its exact rational value as a fraction `num / 2 ^ 1100`,
so the `float64` comparisons of the source become exact fraction
comparisons.  Sign and exponent syntax, which `gweiToETH` never emits
for chain values, are not modelled; neither are negative zero and the
subnormal range below `2 ^ (-1022)` (unreachable: a `gweiToETH` result
is zero or at least `10 ^ (-5)`). -/

/-- Split a character list at the first `'.'`. -/
def splitOnDot : List Char → List Char × Option (List Char)
  | [] => ([], none)
  | c :: cs =>
    if c = '.' then ([], some cs)
    else
      let r := splitOnDot cs
      (c :: r.1, r.2)

/-- An exact decimal value `mant / 10 ^ scale`. -/
structure DecVal where
  mant : Nat
  scale : Nat
deriving DecidableEq

/-- The rational number denoted by a `DecVal`. -/
def DecVal.toQ (d : DecVal) : ℚ := (d.mant : ℚ) / 10 ^ d.scale

/-- The decimal-reading stage of `strconv.ParseFloat` on the strings
relevant here: an optional single decimal point separating two digit
runs, read as the exact decimal value `mant / 10 ^ scale` (the value
`ParseFloat` then rounds to binary64, see `rtne`). -/
def parseFloatDec (cs : List Char) : Option DecVal :=
  match splitOnDot cs with
  | (ip, none) => (parseNatChars ip).map (fun i => { mant := i, scale := 0 })
  | (ip, some fp) =>
    match parseNatChars ip, parseNatChars fp with
    | some i, some f => some { mant := i * 10 ^ fp.length + f, scale := fp.length }
    | _, _ => none

/-- Number of binary digits of `n` (fuel-based so that the kernel can
evaluate it): `2 ^ (blen n - 1) ≤ n < 2 ^ blen n` for positive `n`. -/
def blenAux : Nat → Nat → Nat
  | 0, _ => 0
  | fuel + 1, n => if n = 0 then 0 else blenAux fuel (n / 2) + 1

/-- Bit length of a natural number. -/
def blen (n : Nat) : Nat := blenAux (n + 1) n

/-- Round `p / q` to the nearest integer, ties to even: the rounding step
of IEEE 754 round-to-nearest-even. -/
def RNE (p q : Nat) : Nat :=
  if 2 * (p % q) < q then p / q
  else if q < 2 * (p % q) then p / q + 1
  else if p / q % 2 = 0 then p / q else p / q + 1

/-- Offset binade exponent of `p / q`: the `e` with
`2 ^ 52 ≤ (p * 2 ^ 1100 / (q * 2 ^ e)) < 2 ^ 53` as exact fractions (so
the real binade exponent of the binary64 value is `e - 1100`), computed
from bit lengths with a one-step fix-up. -/
def normE (p q : Nat) : Nat :=
  if 2 ^ 53 * (q * 2 ^ (blen p + 1047 - blen q)) ≤ p * 2 ^ 1100
  then blen p + 1047 - blen q + 1
  else blen p + 1047 - blen q

/-- Round the exact non-negative rational `p / q` to the nearest IEEE 754
binary64 value (round-to-nearest, ties to even), returned as the exact
fraction `num / 2 ^ 1100`; `none` is overflow to infinity, which
`strconv.ParseFloat` reports as a range error. -/
def rtne (p q : Nat) : Option (Nat × Nat) :=
  if p = 0 then some (0, 2 ^ 1100)
  else if 2 ^ 1024 * 2 ^ 1100 ≤
      RNE (p * 2 ^ 1100) (q * 2 ^ normE p q) * 2 ^ normE p q then none
  else some (RNE (p * 2 ^ 1100) (q * 2 ^ normE p q) * 2 ^ normE p q, 2 ^ 1100)

/-- IEEE `<` on finite non-negative binary64 values given as exact
fractions. -/
def f64Lt (x y : Nat × Nat) : Bool := decide (x.1 * y.2 < y.1 * x.2)

/-- `strconv.ParseFloat(s, 64)`: the decimal value of the string,
correctly rounded to the nearest binary64 value; `none` on a syntax or
range error. -/
def parseFloatF64 (cs : List Char) : Option (Nat × Nat) :=
  match parseFloatDec cs with
  | none => none
  | some d => rtne d.mant (10 ^ d.scale)

/-- Go's `float64(minETH)` conversion of the `uint64` minimum
(round-to-nearest-even; the overflow branch is unreachable below
`2 ^ 1024`). -/
def uint64ToF64 (m : Nat) : Nat × Nat :=
  match rtne m 1 with
  | some x => x
  | none => (0, 2 ^ 1100)

/-- The parse-and-compare step of the minimum-value gate
(filtering.go:257-260): `sum_tx, err := strconv.ParseFloat(tx_value, 64)`
followed by the test `err != nil || sum_tx < float64(minETH)`; `true`
means the transaction is skipped. -/
def skipCheck (tx_value : List Char) (minETH : Nat) : Bool :=
  match parseFloatF64 tx_value with
  | none => true
  | some sum_tx => f64Lt sum_tx (uint64ToF64 minETH)

/-- The whole minimum-value gate of `ParseWhaleTransactions`
(filtering.go:255-261): `skipCheck` applied to `gweiToETH` of the raw wei
value. -/
def whaleMinValueSkip (value minETH : Nat) : Bool :=
  skipCheck (gweiToETH value).data minETH

/-- The claim's (and spec's) description of the gated quantity: the raw wei
value divided by `10 ^ 18` and rounded half-up to five decimal places,
i.e. `⌊v / 10 ^ 13 + 1 / 2⌋ / 10 ^ 5`. -/
def ethRoundedHalfUp5 (v : Nat) : ℚ := (⌊(v : ℚ) / 10 ^ 13 + 1 / 2⌋₊ : ℚ) / 10 ^ 5

/-! ### Watermark store (src/pkg/filtering/filtering.go, lines 170-215)

File contents are modelled as `List Char` (the files hold ASCII decimal
digits, one byte per character). -/

/-- `strconv.Atoi` followed by Go's `uint64(num)` conversion, as used by
`ReadLastBlock`: optional sign, a non-empty digit run, 64-bit signed range
check; a negative result wraps modulo `2 ^ 64`. -/
def atoiUint64 (cs : List Char) : Option Nat :=
  match cs with
  | [] => none
  | c :: rest =>
    if c = '+' then
      (parseNatChars rest).bind (fun n => if n ≤ 2 ^ 63 - 1 then some n else none)
    else if c = '-' then
      (parseNatChars rest).bind
        (fun n => if n ≤ 2 ^ 63 then some ((2 ^ 64 - n) % 2 ^ 64) else none)
    else
      (parseNatChars cs).bind (fun n => if n ≤ 2 ^ 63 - 1 then some n else none)

/-- Split file content at newline characters. -/
def splitOnNL : List Char → List (List Char)
  | [] => [[]]
  | c :: cs =>
    if c = '\n' then [] :: splitOnNL cs
    else
      match splitOnNL cs with
      | [] => [[c]]
      | l :: ls => (c :: l) :: ls

/-- `bufio.ScanLines` strips one trailing carriage return from a line. -/
def dropCR (l : List Char) : List Char :=
  if l.getLast? = some '\r' then l.dropLast else l

/-- The token sequence produced by `bufio.Scanner` with `ScanLines`:
newline-separated lines, no empty token after a terminating newline,
carriage returns stripped. -/
def scanLines (content : List Char) : List (List Char) :=
  let ts := splitOnNL content
  let ts := if ts.getLast? = some [] then ts.dropLast else ts
  ts.map dropCR

/-- `ReadLastBlock` (filtering.go:185): scan lines, collect the values of
the lines that `Atoi` accepts, return the first such value, or `0` if the
file is missing (caller passes the previous content; a missing file is the
empty content) or no line parses. -/
def ReadLastBlock (content : List Char) : Nat :=
  ((scanLines content).filterMap atoiUint64).headD 0

/-- `WriteLastBlock` (filtering.go:170): the file is opened
`O_WRONLY|O_CREATE` — crucially without `O_TRUNC` — and the decimal digits
of `block` are written at offset `0`; bytes of any longer previous content
beyond the written digits survive. -/
def WriteLastBlock (content : List Char) (block : Nat) : List Char :=
  natChars block ++ content.drop (natChars block).length

/-! ### Normalized data model (src/pkg/types/blockchain.go)

Field names follow the Go structs; `uint64`/`uint8`/`big.Int` fields become
`Nat`, nilable pointers become `Option`.  Defaults are the Go zero values.
The Go field `Type` is rendered `TxType` (`Type` is not usable as a field
name in Lean); the dynamically typed `DecodedData`/`DecodedEventName` audit
fields of `ParsedLog`, which no code under verification reads, are omitted. -/

structure ParsedLog where
  Address : String := ""
  Topics : List String := []
  Data : String := ""
  BlockNumber : Nat := 0
  BlockHash : String := ""
  TxHash : String := ""
  TxIndex : Nat := 0
  LogIndex : Nat := 0
  Removed : Bool := false
deriving DecidableEq

structure ParsedTransaction where
  Hash : String := ""
  BlockNumber : Nat := 0
  BlockHash : String := ""
  TransactionIndex : Nat := 0
  From : String := ""
  To : Option String := none
  Value : Nat := 0
  Gas : Nat := 0
  GasPrice : Nat := 0
  GasUsed : Nat := 0
  Status : Nat := 0
  InputData : String := ""
  Nonce : Nat := 0
  TxType : Nat := 0
  Logs : List ParsedLog := []
  ContractAddress : Option String := none
  MaxFeePerGas : Option Nat := none
  MaxPriorityFeePerGas : Option Nat := none
deriving DecidableEq

structure ParsedBlock where
  Number : Nat := 0
  Hash : String := ""
  ParentHash : String := ""
  Timestamp : Nat := 0
  Miner : String := ""
  GasLimit : Nat := 0
  GasUsed : Nat := 0
  BaseFeePerGas : Option Nat := none
  Size : Nat := 0
  TxCount : Nat := 0
  Transactions : List ParsedTransaction := []
  UncleCount : Nat := 0
deriving DecidableEq

/-! ### Whale filter (src/pkg/filtering/filtering.go, lines 246-315) -/

/-- Go map lookup, modelled as association-list lookup (map keys are
unique, so first-match lookup is faithful). -/
def lookupAddr : List (String × String) → String → Option String
  | [], _ => none
  | (k, v) :: rest, key => if k = key then some v else lookupAddr rest key

/-- ASCII lower-casing of one character (hex addresses are ASCII, so this
matches Go's `strings.ToLower` on them). -/
def toLowerChar (c : Char) : Char :=
  if 65 ≤ c.toNat ∧ c.toNat ≤ 90 then Char.ofNat (c.toNat + 32) else c

/-- `strings.ToLower` on the ASCII addresses handled here. -/
def lowerStr (s : String) : String := String.mk (s.data.map toLowerChar)

/-- Modelled from the spec: `database.MapParsedTxToDatabaseTx` (package
`database`, not under src/) maps a matched transaction plus the parameters
`[tx_value, tx_dest, whale_id]` to the persisted record; per spec §3 the
record is a subset of the transaction's fields plus the matched whale's
identifier, the transfer direction, and the value as a fixed-5-decimal ETH
string.  The mapping itself is total; `ParseWhaleTransactions` appends one
record per matched transaction regardless of its outcome. -/
structure WhaleTxRecord where
  TxHash : String := ""
  BlockNumber : Nat := 0
  FromAddress : String := ""
  ToAddress : Option String := none
  Value : String := ""
  Direction : String := ""
  WhaleId : String := ""
deriving DecidableEq

/-- The loop body of `ParseWhaleTransactions` (filtering.go:253-289) for a
single transaction: zero or one records.  Addresses are looked up
lower-cased; a transaction below the rounded minimum is skipped; `FROM` if
only the sender is watched, `TO` if only the recipient, `INT` if both;
`txn.To = none` (contract creation) never produces a recipient match. -/
def parseWhaleTx (whalesAddrsID : List (String × String)) (minETH : Nat)
    (txn : ParsedTransaction) : List WhaleTxRecord :=
  let fromHit := lookupAddr whalesAddrsID (lowerStr txn.From)
  let whale_id := fromHit.getD ""
  let is_from := fromHit.isSome
  let tx_value := gweiToETH txn.Value
  if whaleMinValueSkip txn.Value minETH then []
  else
    let tx_dest := if is_from then "FROM" else ""
    let idDest :=
      match txn.To with
      | none => (whale_id, tx_dest)
      | some toAddr =>
        match lookupAddr whalesAddrsID (lowerStr toAddr) with
        | none => (whale_id, tx_dest)
        | some whale_to_id => (whale_to_id, if is_from then "INT" else "TO")
    if idDest.2 = "" then []
    else
      [{ TxHash := txn.Hash, BlockNumber := txn.BlockNumber,
         FromAddress := txn.From, ToAddress := txn.To,
         Value := tx_value, Direction := idDest.2, WhaleId := idDest.1 }]

/-- `ParseWhaleTransactions` (filtering.go:246): nested loop over blocks and
their transactions, appending matched records in traversal order. -/
def ParseWhaleTransactions (blocks : List ParsedBlock)
    (whalesAddrsID : List (String × String)) (minETH : Nat) : List WhaleTxRecord :=
  blocks.foldl
    (fun res blk =>
      blk.Transactions.foldl
        (fun res txn => res ++ parseWhaleTx whalesAddrsID minETH txn) res)
    []

/-- `TransformTxsToCsv` (filtering.go:296): renders the filtered records as
CSV lines.  `time.Now()` is passed in as `now`. -/
def TransformTxsToCsv (txs : List WhaleTxRecord)
    (whalesAddrs : List (String × String)) (now : String) : String :=
  txs.foldl
    (fun res tx =>
      let res :=
        match lookupAddr whalesAddrs (lowerStr tx.FromAddress) with
        | some from_name =>
          res ++ "\"https://etherscan.io/tx/" ++ tx.TxHash ++ "\",\"" ++ tx.Value ++
            " ETH\",\"FROM\",\"" ++ tx.FromAddress ++ "\",\"" ++ from_name ++ "\",\"" ++
            now ++ "\",\"" ++ String.mk (natChars tx.BlockNumber) ++ "\"\n"
        | none => res
      match tx.ToAddress with
      | none => res
      | some toAddr =>
        match lookupAddr whalesAddrs (lowerStr toAddr) with
        | some to_name =>
          res ++ "\"https://etherscan.io/tx/" ++ tx.TxHash ++ "\",\"" ++ tx.Value ++
            " ETH\",\"TO\",\"" ++ toAddr ++ "\",\"" ++ to_name ++ "\",\"" ++
            now ++ "\",\"" ++ String.mk (natChars tx.BlockNumber) ++ "\"\n"
        | none => res)
    ""

/-! ### Run coordinator tail (src/cmd/infura-parser/main.go, lines 201-215)

After the range fetch, `main` (i) takes `blocks[len(blocks)-1].Number` as
"last block parsed", (ii) writes it to the watermark file, (iii) filters
whale transactions, (iv) appends them to the CSV, and (v) batch-inserts
them into the database, `log.Fatalf`-ing on insert failure.  The database
sink is modelled by a success flag. -/

/-- The source's "last block parsed" selection (main.go:201): the final
element of the collected (completion-ordered) block list. -/
def lastBlockParsed (blocks : List ParsedBlock) (h : blocks ≠ []) : Nat :=
  (blocks.getLast h).Number

/-- Modelled from the spec: the selection the spec mandates for watermark
advancement — "explicitly select the maximum block number from the result
set, not ... the last list element". -/
def specMaxBlockNumber (blocks : List ParsedBlock) : Nat :=
  (blocks.map (fun b => b.Number)).foldl max 0

/-- Durable state touched by the run tail. -/
structure RunFiles where
  lastBlockFile : List Char
  csvFile : String
deriving DecidableEq

/-- Embedding of main.go lines 201-215, in source order.  The returned
`Bool` is `true` when the run terminated fatally at the database batch
insert (`sinkOk = false`).  Note that the watermark write precedes the
filter, the CSV append, and the database insert. -/
def mainPersistPhase (files : RunFiles) (blocks : List ParsedBlock) (hne : blocks ≠ [])
    (whalesAddr : List (String × String)) (minETH : Nat) (now : String)
    (sinkOk : Bool) : RunFiles × Bool :=
  let lastBlock := lastBlockParsed blocks hne
  let files := { files with lastBlockFile := WriteLastBlock files.lastBlockFile lastBlock }
  let tx_filtered := ParseWhaleTransactions blocks whalesAddr minETH
  let whale_txn := TransformTxsToCsv tx_filtered whalesAddr now
  let files := { files with csvFile := files.csvFile ++ whale_txn }
  (files, !sinkOk)

/-! ### Block normalizer (src/pkg/parser/parser.go) and its configuration
(src/pkg/types/config.go)

The go-ethereum transaction accessors (`Hash`, `To`, `Value`, signature
recovery, EIP-1559 caps) are modelled as input data on `RawTx`; the three
`Sender` recovery attempts become three optional fields tried in the
source's order.  The receipt batch call is a function parameter whose
invocations are counted in the result. -/

structure ParserConfig where
  Workers : Nat
  BatchSize : Nat
  IncludeLogs : Bool
  IncludeTraces : Bool
  MaxTransactionsForReceipts : Nat
  SkipReceiptsOnLargeBlocks : Bool
  MinETHValue : Nat
  MaxBlockDelta : Nat
  DumpJsonFile : Bool
deriving DecidableEq

/-- The parser-relevant fields of `types.DefaultConfig` (config.go:53-75). -/
def DefaultConfig : ParserConfig :=
  { Workers := 5, BatchSize := 10, IncludeLogs := false, IncludeTraces := false,
    MaxTransactionsForReceipts := 1, SkipReceiptsOnLargeBlocks := true,
    MinETHValue := 1, MaxBlockDelta := 50, DumpJsonFile := false }

/-- A raw go-ethereum transaction as seen through the accessors the parser
calls.  `Eip155Sender` / `LatestSigSender` / `HomesteadSender` are the
respective signature-recovery results (`none` = recovery error). -/
structure RawTx where
  Hash : String := ""
  To : Option String := none
  Value : Nat := 0
  Gas : Nat := 0
  GasPrice : Nat := 0
  Nonce : Nat := 0
  TxType : Nat := 0
  ChainId : Nat := 0
  Eip155Sender : Option String := none
  LatestSigSender : Option String := none
  HomesteadSender : Option String := none
  DataHex : String := ""
  GasFeeCap : Option Nat := none
  GasTipCap : Option Nat := none
deriving DecidableEq

structure RawBlock where
  Number : Nat := 0
  Hash : String := ""
  Transactions : List RawTx := []
deriving DecidableEq

/-- A transaction receipt; `ContractAddress = none` models the zero
`common.Address{}` value. -/
structure Receipt where
  GasUsed : Nat := 0
  Status : Nat := 0
  ContractAddress : Option String := none
  Logs : List ParsedLog := []
deriving DecidableEq

/-- The sender-recovery cascade shared by `parseTransactionSafely` and
`parseTransactionWithoutReceipt` (parser.go:240-260 and 464-484): EIP-155
signer, then the latest signer for the chain id, then the Homestead
signer; `"unknown"` when the chain id is zero or all three fail. -/
def recoverSender (gethTx : RawTx) : String :=
  if gethTx.ChainId ≠ 0 then
    match gethTx.Eip155Sender with
    | some s => s
    | none =>
      match gethTx.LatestSigSender with
      | some s => s
      | none =>
        match gethTx.HomesteadSender with
        | some s => s
        | none => "unknown"
  else "unknown"

/-- `parseTransactionWithoutReceipt` (parser.go:456-540).  The Go function
always returns a nil error, so it is total here; `GasUsed = 0` and
`Status = 2` ("receipt not fetched") are set unconditionally, and EIP-1559
caps are copied only for type-2 transactions. -/
def parseTransactionWithoutReceipt (gethTx : RawTx) (gethBlock : RawBlock)
    (txIndex : Nat) : ParsedTransaction :=
  { Hash := gethTx.Hash, BlockNumber := gethBlock.Number, BlockHash := gethBlock.Hash,
    TransactionIndex := txIndex, From := recoverSender gethTx, To := gethTx.To,
    Value := gethTx.Value, Gas := gethTx.Gas, GasPrice := gethTx.GasPrice,
    InputData := gethTx.DataHex, Nonce := gethTx.Nonce, TxType := gethTx.TxType,
    GasUsed := 0, Status := 2,
    MaxFeePerGas := if gethTx.TxType = 2 then gethTx.GasFeeCap else none,
    MaxPriorityFeePerGas := if gethTx.TxType = 2 then gethTx.GasTipCap else none }

/-- `parseTransactionSafely` (parser.go:225-337); like the Go function
(whose error return is always nil) it is total.  Receipt data is joined
when `receiptIndex` is in range and the entry is non-nil; logs are copied
only when `IncludeLogs` is set and the receipt has logs. -/
def parseTransactionSafely (cfg : ParserConfig) (gethTx : RawTx) (gethBlock : RawBlock)
    (txIndex : Nat) (receipts : List (Option Receipt)) (receiptIndex : Nat) :
    ParsedTransaction :=
  let base : ParsedTransaction :=
    { Hash := gethTx.Hash, BlockNumber := gethBlock.Number, BlockHash := gethBlock.Hash,
      TransactionIndex := txIndex, From := recoverSender gethTx, To := gethTx.To,
      Value := gethTx.Value, Gas := gethTx.Gas, GasPrice := gethTx.GasPrice,
      InputData := gethTx.DataHex, Nonce := gethTx.Nonce, TxType := gethTx.TxType,
      MaxFeePerGas := if gethTx.TxType = 2 then gethTx.GasFeeCap else none,
      MaxPriorityFeePerGas := if gethTx.TxType = 2 then gethTx.GasTipCap else none }
  match receipts.getD receiptIndex none with
  | none => base
  | some receipt =>
    { base with
      GasUsed := receipt.GasUsed, Status := receipt.Status,
      ContractAddress := receipt.ContractAddress,
      Logs := if cfg.IncludeLogs = true ∧ 0 < receipt.Logs.length then receipt.Logs
              else [] }

/-- `parseBlockTransactions` (parser.go:158-222).  Second component counts
`GetTransactionReceiptsBatch` calls.  Branches, in source order: empty
block; large-block receipt skip; receipt batch + per-transaction parse when
`IncludeLogs`; otherwise the function falls through and returns the outer
(still empty) transaction list. -/
def parseBlockTransactions (cfg : ParserConfig) (gethBlock : RawBlock)
    (receiptsBatch : List String → Except Unit (List (Option Receipt))) :
    Except Unit (List ParsedTransaction) × Nat :=
  let blockTxs := gethBlock.Transactions
  if blockTxs.length = 0 then (Except.ok [], 0)
  else if cfg.SkipReceiptsOnLargeBlocks = true ∧
      cfg.MaxTransactionsForReceipts < blockTxs.length then
    (Except.ok (blockTxs.enum.map (fun p => parseTransactionWithoutReceipt p.2 gethBlock p.1)),
      0)
  else if cfg.IncludeLogs = true then
    match receiptsBatch (blockTxs.map (fun t => t.Hash)) with
    | Except.error e => (Except.error e, 1)
    | Except.ok receipts =>
      (Except.ok (blockTxs.enum.map
        (fun p => parseTransactionSafely cfg p.2 gethBlock p.1 receipts p.1)), 1)
  else (Except.ok [], 0)

/-! ### Catch-up window clamp (src/cmd/infura-parser/main.go, lines 149-155)

`startBlock`, `endBlock`, `MaxBlockDelta` are Go `uint64`; the subtraction
`endBlock - startBlock` wraps modulo `2 ^ 64`. -/

/-- `2 ^ 64`, the modulus of Go's `uint64`. -/
def U64MOD : Nat := 2 ^ 64

/-- Wrapping `uint64` subtraction `a - b` (both operands below `2 ^ 64`). -/
def wrapSub (a b : Nat) : Nat := (a + U64MOD - b) % U64MOD

/-- main.go:149-155: `startBlock := ReadLastBlock(path) + 1; endBlock :=
latest; if endBlock-startBlock > MaxBlockDelta { startBlock = latest -
MaxBlockDelta }`, in `uint64` arithmetic. -/
def computeStartBlock (lastBlockStored latest maxBlockDelta : Nat) : Nat :=
  let startBlock := (lastBlockStored + 1) % U64MOD
  if maxBlockDelta < wrapSub latest startBlock then wrapSub latest maxBlockDelta
  else startBlock

theorem charVal_digitChar {d : Nat} (h : d < 10) :
    charVal (Nat.digitChar d) = d := by
  interval_cases d <;> rfl

theorem isDigit_digitChar {d : Nat} (h : d < 10) :
    isDigitChar (Nat.digitChar d) = true := by
  interval_cases d <;> rfl

theorem digitsBE_ne_nil (n : Nat) : digitsBE n ≠ [] := by
  unfold digitsBE
  split
  · simp
  · simp

theorem digitsBE_all_digits (n : Nat) : ∀ c ∈ digitsBE n, isDigitChar c = true := by
  induction n using Nat.strong_induction_on with
  | _ n ih =>
    unfold digitsBE
    split
    · intro c hc
      simp only [List.mem_singleton] at hc
      subst hc
      exact isDigit_digitChar (by omega)
    · intro c hc
      rcases List.mem_append.mp hc with h1 | h2
      · exact ih (n / 10) (by omega) c h1
      · simp only [List.mem_singleton] at h2
        subst h2
        exact isDigit_digitChar (Nat.mod_lt _ (by omega))

theorem natCharsAux_eq_digitsBE :
    ∀ (fuel n : Nat) (acc : List Char), n < 10 ^ (fuel + 1) →
      natCharsAux (fuel + 1) n acc = digitsBE n ++ acc := by
  intro fuel
  induction fuel with
  | zero =>
    intro n acc h
    have hn : n < 10 := by simpa using h
    rw [natCharsAux, if_pos hn, digitsBE, dif_pos hn]
    simp
  | succ f ih =>
    intro n acc h
    by_cases hn : n < 10
    · rw [natCharsAux, if_pos hn, digitsBE, dif_pos hn]
      simp
    · rw [natCharsAux, if_neg hn]
      have hdiv : n / 10 < 10 ^ (f + 1) := by
        have : n < 10 ^ (f + 2) := h
        have h10 : 10 ^ (f + 2) = 10 ^ (f + 1) * 10 := by ring
        omega
      rw [ih (n / 10) _ hdiv]
      have hEq : digitsBE n = digitsBE (n / 10) ++ [Nat.digitChar (n % 10)] := by
        rw [digitsBE]
        rw [dif_neg hn]
      rw [hEq]
      simp

theorem natChars_eq_digitsBE (n : Nat) : natChars n = digitsBE n := by
  have h : n < 10 ^ (n + 1) := by
    calc n < 2 ^ n := Nat.lt_two_pow n
    _ ≤ 10 ^ n := Nat.pow_le_pow_left (by omega) n
    _ ≤ 10 ^ (n + 1) := Nat.pow_le_pow_right (by omega) (by omega)
  simpa using natCharsAux_eq_digitsBE n n [] h

/-- Accumulating over a digit list from `k` shifts the result by `10 ^ length`. -/
theorem foldl_valStep_shift (cs : List Char) :
    ∀ k : Nat, cs.foldl valStep k = k * 10 ^ cs.length + cs.foldl valStep 0 := by
  induction cs with
  | nil => intro k; simp
  | cons c cs ih =>
    intro k
    simp only [List.foldl_cons, List.length_cons]
    rw [ih (valStep k c), ih (valStep 0 c)]
    simp only [valStep]
    ring

theorem valBE_digitsBE (n : Nat) : valBE (digitsBE n) = n := by
  induction n using Nat.strong_induction_on with
  | _ n ih =>
    unfold valBE digitsBE
    split
    · next h =>
      simp [valStep, charVal_digitChar h]
    · next h =>
      rw [List.foldl_append]
      have := ih (n / 10) (by omega)
      unfold valBE at this
      rw [this]
      simp only [List.foldl_cons, List.foldl_nil, valStep,
        charVal_digitChar (Nat.mod_lt n (by omega))]
      omega

theorem valBE_lt (cs : List Char) (h : ∀ c ∈ cs, isDigitChar c = true) :
    valBE cs < 10 ^ cs.length := by
  induction cs with
  | nil => simp [valBE]
  | cons c cs ih =>
    have hc : isDigitChar c = true := h c (by simp)
    have hval : charVal c < 10 := by
      simp only [isDigitChar, Bool.and_eq_true, decide_eq_true_eq] at hc
      unfold charVal
      omega
    have htail := ih (fun d hd => h d (by simp [hd]))
    unfold valBE at htail ⊢
    simp only [List.foldl_cons, List.length_cons]
    rw [foldl_valStep_shift]
    have h1 : valStep 0 c ≤ 9 := by
      simp only [valStep]
      omega
    calc valStep 0 c * 10 ^ cs.length + cs.foldl valStep 0
        ≤ 9 * 10 ^ cs.length + cs.foldl valStep 0 :=
          Nat.add_le_add_right (Nat.mul_le_mul_right _ h1) _
    _ < 9 * 10 ^ cs.length + 10 ^ cs.length := by omega
    _ = 10 ^ (cs.length + 1) := by ring

theorem parseNatAux_digits (cs : List Char) :
    ∀ k, (∀ c ∈ cs, isDigitChar c = true) → parseNatAux cs k = some (cs.foldl valStep k) := by
  induction cs with
  | nil => intro k _; rfl
  | cons c cs ih =>
    intro k h
    have hc : isDigitChar c = true := h c (by simp)
    rw [parseNatAux, if_pos hc, ih (valStep k c) (fun d hd => h d (by simp [hd]))]
    rfl

theorem parseNatChars_digits (cs : List Char) (hne : cs ≠ [])
    (h : ∀ c ∈ cs, isDigitChar c = true) : parseNatChars cs = some (valBE cs) := by
  match cs, hne with
  | c :: cs, _ =>
    rw [parseNatChars]
    exact parseNatAux_digits (c :: cs) 0 h

theorem parseNatChars_digitsBE (n : Nat) :
    parseNatChars (digitsBE n) = some n := by
  rw [parseNatChars_digits (digitsBE n) (digitsBE_ne_nil n) (digitsBE_all_digits n),
    valBE_digitsBE]

theorem digitsBE_length_le {n k : Nat} (hk : 1 ≤ k) (h : n < 10 ^ k) :
    (digitsBE n).length ≤ k := by
  induction k generalizing n with
  | zero => omega
  | succ k ih =>
    by_cases hn : n < 10
    · rw [digitsBE, dif_pos hn]
      simp
    · rw [digitsBE, dif_neg hn]
      have hk1 : 1 ≤ k := by
        by_contra hc
        have : k = 0 := by omega
        subst this
        simp at h
        omega
      have hdiv : n / 10 < 10 ^ k := by
        have h10 : 10 ^ (k + 1) = 10 ^ k * 10 := by ring
        omega
      have := ih hk1 hdiv
      simp only [List.length_append, List.length_singleton]
      omega

theorem lt_pow_digitsBE_length (n : Nat) : n < 10 ^ (digitsBE n).length := by
  have := valBE_digitsBE n
  have := valBE_lt (digitsBE n) (digitsBE_all_digits n)
  omega

theorem digit_ne_special {c : Char} (h : isDigitChar c = true) :
    c ≠ '.' ∧ c ≠ '+' ∧ c ≠ '-' ∧ c ≠ '\n' ∧ c ≠ '\r' := by
  simp only [isDigitChar, Bool.and_eq_true, decide_eq_true_eq] at h
  refine ⟨?_, ?_, ?_, ?_, ?_⟩ <;> (intro hc; subst hc; simp at h)

theorem splitOnDot_no_dot (cs : List Char) (h : '.' ∉ cs) :
    splitOnDot cs = (cs, none) := by
  induction cs with
  | nil => rfl
  | cons c cs ih =>
    have hc : c ≠ '.' := by
      intro hc
      exact h (by simp [hc])
    rw [splitOnDot, if_neg (by simpa using fun hcc => hc hcc)]
    rw [ih (fun hm => h (by simp [hm]))]

theorem splitOnDot_append (xs ys : List Char) (h : '.' ∉ xs) :
    splitOnDot (xs ++ '.' :: ys) = (xs, some ys) := by
  induction xs with
  | nil => simp [splitOnDot]
  | cons x xs ih =>
    have hx : x ≠ '.' := by
      intro hc
      exact h (by simp [hc])
    simp only [List.cons_append]
    rw [splitOnDot, if_neg (by simpa using fun hcc => hx hcc)]
    rw [ih (fun hm => h (by simp [hm]))]

theorem dot_not_mem_digits (cs : List Char) (h : ∀ c ∈ cs, isDigitChar c = true) :
    '.' ∉ cs := by
  intro hm
  exact (digit_ne_special (h _ hm)).1 rfl

theorem foldl_valStep_replicate_zero (j : Nat) :
    ∀ k, (List.replicate j '0').foldl valStep k = k * 10 ^ j := by
  induction j with
  | zero => intro k; simp
  | succ j ih =>
    intro k
    rw [List.replicate_succ]
    simp only [List.foldl_cons]
    rw [ih (valStep k '0')]
    have : valStep k '0' = k * 10 := by
      simp [valStep, charVal]
    rw [this]
    ring

theorem valBE_append_replicate_zero (xs : List Char) (j : Nat) :
    valBE (xs ++ List.replicate j '0') = valBE xs * 10 ^ j := by
  unfold valBE
  rw [List.foldl_append, foldl_valStep_replicate_zero]

theorem trimTrailingZeros_decomp (cs : List Char) :
    ∃ k, cs = trimTrailingZeros cs ++ List.replicate k '0' ∧
      (trimTrailingZeros cs).length + k = cs.length := by
  refine ⟨(cs.reverse.takeWhile (fun c => c = '0')).length, ?_, ?_⟩
  · unfold trimTrailingZeros
    conv_lhs => rw [← cs.reverse_reverse]
    conv_lhs => rw [← List.takeWhile_append_dropWhile (p := fun c => c = '0') (l := cs.reverse)]
    rw [List.reverse_append]
    congr 1
    have hall : ∀ c ∈ cs.reverse.takeWhile (fun c => c = '0'), c = '0' := by
      intro c hc
      have := List.mem_takeWhile_imp hc
      simpa using this
    rw [List.eq_replicate_of_mem hall]
    simp [List.reverse_replicate]
  · unfold trimTrailingZeros
    have := List.takeWhile_append_dropWhile (p := fun c => c = '0') (l := cs.reverse)
    have hlen : (cs.reverse.takeWhile (fun c => c = '0')).length +
        (cs.reverse.dropWhile (fun c => c = '0')).length = cs.length := by
      have h2 := congrArg List.length this
      rw [List.length_append, List.length_reverse] at h2
      exact h2
    simp only [List.length_reverse]
    omega

theorem padLeftZeros_valBE (cs : List Char) (w : Nat) :
    valBE (padLeftZeros w cs) = valBE cs := by
  unfold padLeftZeros valBE
  rw [List.foldl_append, foldl_valStep_replicate_zero]
  simp

theorem padLeftZeros_length (cs : List Char) (w : Nat) (h : cs.length ≤ w) :
    (padLeftZeros w cs).length = w := by
  unfold padLeftZeros
  simp
  omega

theorem padLeftZeros_all_digits (cs : List Char) (w : Nat)
    (h : ∀ c ∈ cs, isDigitChar c = true) :
    ∀ c ∈ padLeftZeros w cs, isDigitChar c = true := by
  intro c hc
  unfold padLeftZeros at hc
  rcases List.mem_append.mp hc with h1 | h2
  · have := List.eq_of_mem_replicate h1
    subst this
    rfl
  · exact h c h2

/-- Round trip of the shopspring rendering through the `ParseFloat` model:
the parsed decimal represents exactly `n / 10 ^ 5`. -/
theorem parseFloatDec_renderScaled5 (n : Nat) :
    ∃ d : DecVal, parseFloatDec (renderScaled5 n) = some d ∧
      d.scale ≤ 5 ∧ d.mant * 10 ^ (5 - d.scale) = n := by
  have hq : n / 10 ^ 5 * 10 ^ 5 + n % 10 ^ 5 = n := by
    have := Nat.div_add_mod n (10 ^ 5)
    omega
  set q := n / 10 ^ 5 with hqdef
  set r := n % 10 ^ 5 with hrdef
  have hr5 : r < 10 ^ 5 := Nat.mod_lt _ (by norm_num)
  have hlenr : (digitsBE r).length ≤ 5 := digitsBE_length_le (by norm_num) hr5
  have hfracRaw : padLeftZeros 5 (natChars r) =
      List.replicate (5 - (digitsBE r).length) '0' ++ digitsBE r := by
    rw [natChars_eq_digitsBE]
    rfl
  have hfrd : ∀ c ∈ padLeftZeros 5 (natChars r), isDigitChar c = true := by
    rw [natChars_eq_digitsBE]
    exact padLeftZeros_all_digits _ _ (digitsBE_all_digits r)
  have hfrlen : (padLeftZeros 5 (natChars r)).length = 5 := by
    rw [natChars_eq_digitsBE]
    exact padLeftZeros_length _ _ hlenr
  have hfrval : valBE (padLeftZeros 5 (natChars r)) = r := by
    rw [natChars_eq_digitsBE, padLeftZeros_valBE, valBE_digitsBE]
  obtain ⟨k, hdec, hlen⟩ := trimTrailingZeros_decomp (padLeftZeros 5 (natChars r))
  set frac := trimTrailingZeros (padLeftZeros 5 (natChars r)) with hfracdef
  have hfval : valBE frac * 10 ^ k = r := by
    rw [← hfrval, hdec, valBE_append_replicate_zero]
  have hfd : ∀ c ∈ frac, isDigitChar c = true := by
    intro c hc
    exact hfrd c (by rw [hdec]; exact List.mem_append.mpr (Or.inl hc))
  have hintd := digitsBE_all_digits q
  by_cases hempty : frac.isEmpty
  · have hfnil : frac = [] := by
      simpa [List.isEmpty_iff] using hempty
    have hr0 : r = 0 := by
      rw [← hfval, hfnil]
      simp [valBE]
    refine ⟨{ mant := q, scale := 0 }, ?_, ?_, ?_⟩
    · unfold renderScaled5
      rw [← hrdef, ← hqdef, if_pos (by rw [← hfracdef, hfnil]; rfl)]
      unfold parseFloatDec
      rw [natChars_eq_digitsBE, splitOnDot_no_dot _ (dot_not_mem_digits _ hintd)]
      simp [parseNatChars_digitsBE]
    · show (0 : Nat) ≤ 5
      omega
    · show q * 10 ^ (5 - 0) = n
      simp only [Nat.sub_zero]
      rw [← hq, hr0]
      simp
  · have hfnil : frac ≠ [] := by
      simpa [List.isEmpty_iff] using hempty
    refine ⟨{ mant := q * 10 ^ frac.length + valBE frac, scale := frac.length }, ?_, ?_, ?_⟩
    · unfold renderScaled5
      rw [← hrdef, ← hqdef, if_neg (by rw [← hfracdef]; simpa using hfnil)]
      unfold parseFloatDec
      rw [natChars_eq_digitsBE, ← hfracdef,
        splitOnDot_append _ _ (dot_not_mem_digits _ hintd)]
      simp [parseNatChars_digitsBE, parseNatChars_digits frac hfnil hfd]
    · show frac.length ≤ 5
      omega
    · show (q * 10 ^ frac.length + valBE frac) * 10 ^ (5 - frac.length) = n
      have hk : frac.length + k = 5 := by omega
      have h5k : 5 - frac.length = k := by omega
      rw [h5k]
      calc (q * 10 ^ frac.length + valBE frac) * 10 ^ k
          = q * (10 ^ frac.length * 10 ^ k) + valBE frac * 10 ^ k := by ring
      _ = q * 10 ^ 5 + r := by rw [← pow_add, hk, hfval]
      _ = n := hq

theorem blenAux_zero (fuel : Nat) : blenAux fuel 0 = 0 := by
  cases fuel <;> rfl

theorem blenAux_spec (fuel : Nat) :
    ∀ n : Nat, n < 2 ^ fuel →
      n < 2 ^ blenAux fuel n ∧ (0 < n → 2 ^ (blenAux fuel n - 1) ≤ n) := by
  induction fuel with
  | zero =>
    intro n h
    have hn : n = 0 := by simpa using Nat.lt_one_iff.mp h
    subst hn
    exact ⟨by simp [blenAux], by omega⟩
  | succ f ih =>
    intro n h
    by_cases h0 : n = 0
    · subst h0
      refine ⟨?_, by omega⟩
      rw [blenAux_zero]
      simp
    · rw [blenAux, if_neg h0]
      have hps : (2 : ℕ) ^ (f + 1) = 2 ^ f * 2 := pow_succ 2 f
      have hdiv : n / 2 < 2 ^ f := by omega
      obtain ⟨ih1, ih2⟩ := ih (n / 2) hdiv
      set a := blenAux f (n / 2) with ha
      constructor
      · have hps2 : (2 : ℕ) ^ (a + 1) = 2 ^ a * 2 := pow_succ 2 a
        omega
      · intro _
        have hgoal : a + 1 - 1 = a := by omega
        rw [hgoal]
        by_cases hz : n / 2 = 0
        · have ha0 : a = 0 := by rw [ha, hz, blenAux_zero]
          rw [ha0]
          simpa using by omega
        · have h1 := ih2 (Nat.pos_of_ne_zero hz)
          have hag : 1 ≤ a := by
            by_contra hc
            have ha0 : a = 0 := by omega
            rw [ha0] at ih1
            simp at ih1
            omega
          have hps3 : (2 : ℕ) ^ a = 2 ^ (a - 1) * 2 := by
            conv_lhs => rw [show a = (a - 1) + 1 by omega]
            exact pow_succ 2 (a - 1)
          omega

theorem blen_spec (n : Nat) (h : 0 < n) :
    2 ^ (blen n - 1) ≤ n ∧ n < 2 ^ blen n := by
  have hlt : n < 2 ^ (n + 1) := by
    have h1 := Nat.lt_two_pow n
    have h2 : (2 : ℕ) ^ n ≤ 2 ^ (n + 1) := Nat.pow_le_pow_right (by omega) (by omega)
    omega
  obtain ⟨h1, h2⟩ := blenAux_spec (n + 1) n hlt
  exact ⟨h2 h, h1⟩

theorem blen_pos (n : Nat) (h : 0 < n) : 1 ≤ blen n := by
  obtain ⟨_, h2⟩ := blen_spec n h
  by_contra hc
  have hb : blen n = 0 := by omega
  rw [hb] at h2
  simp at h2
  omega

theorem blen_le (n k : Nat) (h : n < 2 ^ k) (hn : 0 < n) : blen n ≤ k := by
  obtain ⟨h1, _⟩ := blen_spec n hn
  have hlt : 2 ^ (blen n - 1) < 2 ^ k := lt_of_le_of_lt h1 h
  have h2 := (Nat.pow_lt_pow_iff_right (by omega : 1 < 2)).mp hlt
  have hp := blen_pos n hn
  omega

theorem RNE_up (p q : Nat) (hq : 0 < q) : 2 * RNE p q * q ≤ 2 * p + q := by
  have hdm : q * (p / q) + p % q = p := Nat.div_add_mod p q
  have hmlt : p % q < q := Nat.mod_lt p hq
  have h1 : 2 * (p / q) * q = 2 * (q * (p / q)) := by ring
  have h2 : 2 * (p / q + 1) * q = 2 * (q * (p / q)) + 2 * q := by ring
  unfold RNE
  split
  next h => omega
  next h =>
    split
    next h3 => omega
    next h3 =>
      split
      next h4 => omega
      next h4 => omega

theorem RNE_down (p q : Nat) (hq : 0 < q) : 2 * p ≤ 2 * RNE p q * q + q := by
  have hdm : q * (p / q) + p % q = p := Nat.div_add_mod p q
  have hmlt : p % q < q := Nat.mod_lt p hq
  have h1 : 2 * (p / q) * q = 2 * (q * (p / q)) := by ring
  have h2 : 2 * (p / q + 1) * q = 2 * (q * (p / q)) + 2 * q := by ring
  unfold RNE
  split
  next h => omega
  next h =>
    split
    next h3 => omega
    next h3 =>
      split
      next h4 => omega
      next h4 => omega

theorem RNE_mul (m k : Nat) (hk : 0 < k) : RNE (m * k) k = m := by
  unfold RNE
  rw [Nat.mul_mod_left, Nat.mul_div_cancel _ hk]
  rw [if_pos (by omega : 2 * 0 < k)]

theorem normE_spec (p q : Nat) (hp : 0 < p) (hq : 0 < q)
    (hbl : blen q ≤ blen p + 1047) :
    2 ^ 52 * (q * 2 ^ normE p q) ≤ p * 2 ^ 1100 ∧
    p * 2 ^ 1100 < 2 ^ 53 * (q * 2 ^ normE p q) := by
  obtain ⟨hp1, hp2⟩ := blen_spec p hp
  obtain ⟨hq1, hq2⟩ := blen_spec q hq
  have hppos := blen_pos p hp
  have hqpos := blen_pos q hq
  unfold normE
  set Lp := blen p with hLp
  set Lq := blen q with hLq
  set e0 := Lp + 1047 - Lq with he0
  have he0' : e0 + Lq = Lp + 1047 := by omega
  split
  next htest =>
    constructor
    · have h1 : 2 ^ 52 * (q * 2 ^ (e0 + 1)) = 2 ^ 53 * (q * 2 ^ e0) := by
        rw [pow_succ, show (2 : ℕ) ^ 53 = 2 ^ 52 * 2 from by norm_num]
        ring
      rw [h1]
      exact htest
    · calc p * 2 ^ 1100 < 2 ^ Lp * 2 ^ 1100 :=
            mul_lt_mul_of_pos_right hp2 (by positivity)
      _ = 2 ^ (Lp + 1100) := by rw [← pow_add]
      _ = 2 ^ 53 * (2 ^ (Lq - 1) * 2 ^ (e0 + 1)) := by
            rw [← pow_add, ← pow_add]
            congr 1
            omega
      _ ≤ 2 ^ 53 * (q * 2 ^ (e0 + 1)) :=
            mul_le_mul_left' (mul_le_mul_right' hq1 _) _
  next htest =>
    refine ⟨?_, Nat.lt_of_not_le htest⟩
    calc 2 ^ 52 * (q * 2 ^ e0) ≤ 2 ^ 52 * (2 ^ Lq * 2 ^ e0) :=
          mul_le_mul_left' (mul_le_mul_right' (le_of_lt hq2) _) _
    _ = 2 ^ (52 + (Lq + e0)) := by rw [← pow_add, ← pow_add]
    _ = 2 ^ (Lp - 1) * 2 ^ 1100 := by
          rw [← pow_add]
          congr 1
          omega
    _ ≤ p * 2 ^ 1100 := mul_le_mul_right' hp1 _

theorem rtne_int_exact (m : Nat) (h1 : 0 < m) (h2 : m < 2 ^ 53) :
    rtne m 1 = some (m * 2 ^ 1100, 2 ^ 1100) := by
  have hbl : blen 1 ≤ blen m + 1047 := by
    have hb1 : blen 1 = 1 := by decide
    omega
  obtain ⟨hlo, hhi⟩ := normE_spec m 1 h1 (by omega) hbl
  have he1100 : normE m 1 ≤ 1100 := by
    by_contra hc
    push_neg at hc
    have h52 : (2 : ℕ) ^ (52 + normE m 1) ≤ m * 2 ^ 1100 := by
      rw [pow_add]
      calc (2 : ℕ) ^ 52 * 2 ^ normE m 1 = 2 ^ 52 * (1 * 2 ^ normE m 1) := by ring
      _ ≤ m * 2 ^ 1100 := hlo
    have hmb : m * 2 ^ 1100 < 2 ^ 1153 := by
      calc m * 2 ^ 1100 < 2 ^ 53 * 2 ^ 1100 := mul_lt_mul_of_pos_right h2 (by positivity)
      _ = 2 ^ 1153 := by rw [← pow_add]
    have h3 : (2 : ℕ) ^ (52 + normE m 1) < 2 ^ 1153 := lt_of_le_of_lt h52 hmb
    have := (Nat.pow_lt_pow_iff_right (by omega : 1 < 2)).mp h3
    omega
  have hadd : 1100 - normE m 1 + normE m 1 = 1100 := by omega
  have hsplit : m * 2 ^ 1100 = m * 2 ^ (1100 - normE m 1) * 2 ^ normE m 1 := by
    rw [mul_assoc, ← pow_add, hadd]
  have hRNE : RNE (m * 2 ^ 1100) (1 * 2 ^ normE m 1) =
      m * 2 ^ (1100 - normE m 1) := by
    rw [one_mul, hsplit]
    exact RNE_mul _ _ (by positivity)
  have hple : (2 : ℕ) ^ 53 ≤ 2 ^ 1024 := Nat.pow_le_pow_right (by omega) (by omega)
  have hov : ¬ 2 ^ 1024 * 2 ^ 1100 ≤ m * 2 ^ (1100 - normE m 1) * 2 ^ normE m 1 := by
    push_neg
    rw [← hsplit]
    calc m * 2 ^ 1100 < 2 ^ 53 * 2 ^ 1100 := mul_lt_mul_of_pos_right h2 (by positivity)
    _ ≤ 2 ^ 1024 * 2 ^ 1100 := mul_le_mul_right' hple _
  unfold rtne
  rw [if_neg (by omega : ¬ m = 0), hRNE, if_neg hov, ← hsplit]

theorem uint64ToF64_exact (m : Nat) (h1 : 0 < m) (h2 : m < 2 ^ 53) :
    uint64ToF64 m = (m * 2 ^ 1100, 2 ^ 1100) := by
  unfold uint64ToF64
  rw [rtne_int_exact m h1 h2]

set_option maxRecDepth 16000 in
theorem rtne_lt_int (p q m : Nat) (hp : 0 < p) (hq : 0 < q) (hqB : q ≤ 10 ^ 5)
    (hmB : m ≤ 2 ^ 36) (hlt : p < m * q) :
    ∃ N : Nat, rtne p q = some (N, 2 ^ 1100) ∧ N < m * 2 ^ 1100 := by
  have hq17 : q < 2 ^ 17 := by
    calc q ≤ 10 ^ 5 := hqB
    _ < 2 ^ 17 := by norm_num
  have hbl : blen q ≤ blen p + 1047 := by
    have := blen_le q 17 hq17 hq
    omega
  obtain ⟨hlo, hhi⟩ := normE_spec p q hp hq hbl
  set e := normE p q with he
  set M := RNE (p * 2 ^ 1100) (q * 2 ^ e) with hM
  have hmpos : 0 < m := by
    rcases Nat.eq_zero_or_pos m with h | h
    · subst h
      simp at hlt
    · exact h
  have he83 : e ≤ 1083 := by
    have h1 : 2 ^ (52 + e) * q < 2 ^ 1136 * q := by
      calc 2 ^ (52 + e) * q = 2 ^ 52 * (q * 2 ^ e) := by rw [pow_add]; ring
      _ ≤ p * 2 ^ 1100 := hlo
      _ < (m * q) * 2 ^ 1100 := mul_lt_mul_of_pos_right hlt (by positivity)
      _ ≤ (2 ^ 36 * q) * 2 ^ 1100 := mul_le_mul_right' (mul_le_mul_right' hmB q) _
      _ = 2 ^ 1136 * q := by
            rw [show (2 : ℕ) ^ 1136 = 2 ^ 36 * 2 ^ 1100 by rw [← pow_add]]
            ring
    have h3 : (2 : ℕ) ^ (52 + e) < 2 ^ 1136 := lt_of_mul_lt_mul_right h1 (Nat.zero_le q)
    have := (Nat.pow_lt_pow_iff_right (by omega : 1 < 2)).mp h3
    omega
  have hqe : q * 2 ^ e < 2 ^ 1100 := by
    calc q * 2 ^ e < 2 ^ 17 * 2 ^ e := mul_lt_mul_of_pos_right hq17 (by positivity)
    _ = 2 ^ (17 + e) := by rw [← pow_add]
    _ ≤ 2 ^ 1100 := Nat.pow_le_pow_right (by omega) (by omega)
  have hup := RNE_up (p * 2 ^ 1100) (q * 2 ^ e) (by positivity)
  rw [← hM] at hup
  have hMlt2 : M * 2 ^ e < m * 2 ^ 1100 := by
    have hple : p ≤ m * q - 1 := by omega
    have hp1100 : p * 2 ^ 1100 ≤ (m * q - 1) * 2 ^ 1100 := mul_le_mul_right' hple _
    have hsub : (m * q - 1) * 2 ^ 1100 = m * q * 2 ^ 1100 - 2 ^ 1100 := by
      rw [Nat.sub_mul, one_mul]
    have hmq1 : 2 ^ 1100 ≤ m * q * 2 ^ 1100 := by
      have hmq0 : 0 < m * q := by positivity
      have hmq : 1 ≤ m * q := hmq0
      calc (2 : ℕ) ^ 1100 = 1 * 2 ^ 1100 := (one_mul _).symm
      _ ≤ m * q * 2 ^ 1100 := mul_le_mul_right' hmq _
    have hstep : 2 * (M * 2 ^ e * q) < 2 * (m * 2 ^ 1100 * q) := by
      have hc1 : 2 * (M * 2 ^ e * q) = 2 * M * (q * 2 ^ e) := by ring
      have hc2 : m * 2 ^ 1100 * q = m * q * 2 ^ 1100 := by ring
      omega
    have := Nat.lt_of_mul_lt_mul_left hstep
    exact lt_of_mul_lt_mul_right this (Nat.zero_le q)
  have hple : (2 : ℕ) ^ 36 ≤ 2 ^ 1024 := Nat.pow_le_pow_right (by omega) (by omega)
  have hov : ¬ 2 ^ 1024 * 2 ^ 1100 ≤ M * 2 ^ e := by
    push_neg
    calc M * 2 ^ e < m * 2 ^ 1100 := hMlt2
    _ ≤ 2 ^ 36 * 2 ^ 1100 := mul_le_mul_right' hmB _
    _ ≤ 2 ^ 1024 * 2 ^ 1100 := mul_le_mul_right' hple _
  refine ⟨M * 2 ^ e, ?_, hMlt2⟩
  unfold rtne
  rw [if_neg (by omega : ¬ p = 0), ← he, ← hM, if_neg hov]

set_option maxRecDepth 16000 in
theorem rtne_ge_int (p q m : Nat) (hp : 0 < p) (hq : 0 < q) (hqB : q ≤ 10 ^ 5)
    (hm : 0 < m) (hm53 : m < 2 ^ 53) (hge : m * q ≤ p) (hpB : p ≤ 2 ^ 1000 * q) :
    ∃ N : Nat, rtne p q = some (N, 2 ^ 1100) ∧ m * 2 ^ 1100 ≤ N := by
  have hq17 : q < 2 ^ 17 := by
    calc q ≤ 10 ^ 5 := hqB
    _ < 2 ^ 17 := by norm_num
  have hbl : blen q ≤ blen p + 1047 := by
    have := blen_le q 17 hq17 hq
    omega
  obtain ⟨hlo, hhi⟩ := normE_spec p q hp hq hbl
  set e := normE p q with he
  set M := RNE (p * 2 ^ 1100) (q * 2 ^ e) with hM
  have hdown := RNE_down (p * 2 ^ 1100) (q * 2 ^ e) (by positivity)
  rw [← hM] at hdown
  have hup := RNE_up (p * 2 ^ 1100) (q * 2 ^ e) (by positivity)
  rw [← hM] at hup
  have hmain : m * 2 ^ 1100 ≤ M * 2 ^ e := by
    rcases le_or_lt e 1100 with hle | hgt
    · have h1 : 2 * (m * q * 2 ^ 1100) ≤ 2 * M * (q * 2 ^ e) + q * 2 ^ e := by
        have h0 : m * q * 2 ^ 1100 ≤ p * 2 ^ 1100 := mul_le_mul_right' hge _
        omega
      have h2 : 2 * (m * 2 ^ 1100) * q ≤ (2 * M * 2 ^ e + 2 ^ e) * q := by
        calc 2 * (m * 2 ^ 1100) * q = 2 * (m * q * 2 ^ 1100) := by ring
        _ ≤ 2 * M * (q * 2 ^ e) + q * 2 ^ e := h1
        _ = (2 * M * 2 ^ e + 2 ^ e) * q := by ring
      have h3 : 2 * (m * 2 ^ 1100) ≤ 2 * M * 2 ^ e + 2 ^ e :=
        le_of_mul_le_mul_right h2 hq
      have hsplit : (2 : ℕ) ^ 1100 = 2 ^ (1100 - e) * 2 ^ e := by
        rw [← pow_add]
        congr 1
        omega
      rw [hsplit] at h3
      have h4 : 2 * (m * 2 ^ (1100 - e)) * 2 ^ e ≤ (2 * M + 1) * 2 ^ e := by
        calc 2 * (m * 2 ^ (1100 - e)) * 2 ^ e
            = 2 * (m * (2 ^ (1100 - e) * 2 ^ e)) := by ring
        _ ≤ 2 * M * 2 ^ e + 2 ^ e := h3
        _ = (2 * M + 1) * 2 ^ e := by ring
      have h5 : 2 * (m * 2 ^ (1100 - e)) ≤ 2 * M + 1 :=
        le_of_mul_le_mul_right h4 (by positivity)
      have h6 : m * 2 ^ (1100 - e) ≤ M := by omega
      have hadd : 1100 - e + e = 1100 := by omega
      calc m * 2 ^ 1100 = m * 2 ^ (1100 - e) * 2 ^ e := by
            rw [mul_assoc, ← pow_add, hadd]
      _ ≤ M * 2 ^ e := mul_le_mul_right' h6 _
    · have hM52 : 2 ^ 52 ≤ M := by
        have h1 : 2 * (2 ^ 52 * (q * 2 ^ e)) ≤ 2 * M * (q * 2 ^ e) + q * 2 ^ e := by
          omega
        have h2 : (2 * 2 ^ 52) * (q * 2 ^ e) ≤ (2 * M + 1) * (q * 2 ^ e) := by
          calc (2 * 2 ^ 52) * (q * 2 ^ e) = 2 * (2 ^ 52 * (q * 2 ^ e)) := by ring
          _ ≤ 2 * M * (q * 2 ^ e) + q * 2 ^ e := h1
          _ = (2 * M + 1) * (q * 2 ^ e) := by ring
        have h3 : 2 * 2 ^ 52 ≤ 2 * M + 1 :=
          le_of_mul_le_mul_right h2 (by positivity)
        have h4 : (2 : ℕ) * 2 ^ 52 = 2 ^ 53 := by norm_num
        omega
      have hpe : (2 : ℕ) ^ 1101 ≤ 2 ^ e := Nat.pow_le_pow_right (by omega) (by omega)
      calc m * 2 ^ 1100 ≤ 2 ^ 53 * 2 ^ 1100 := mul_le_mul_right' (le_of_lt hm53) _
      _ = 2 ^ 52 * 2 ^ 1101 := by rw [← pow_add, ← pow_add]
      _ ≤ M * 2 ^ 1101 := mul_le_mul_right' hM52 _
      _ ≤ M * 2 ^ e := mul_le_mul_left' hpe _
  have hov : ¬ 2 ^ 1024 * 2 ^ 1100 ≤ M * 2 ^ e := by
    push_neg
    have he48 : e ≤ 2048 := by
      have h2 : 2 ^ (52 + e) * q ≤ 2 ^ 2100 * q := by
        calc 2 ^ (52 + e) * q = 2 ^ 52 * (q * 2 ^ e) := by rw [pow_add]; ring
        _ ≤ p * 2 ^ 1100 := hlo
        _ ≤ 2 ^ 1000 * q * 2 ^ 1100 := mul_le_mul_right' hpB _
        _ = 2 ^ 2100 * q := by
              rw [show (2 : ℕ) ^ 2100 = 2 ^ 1000 * 2 ^ 1100 by rw [← pow_add]]
              ring
      have h3 : (2 : ℕ) ^ (52 + e) ≤ 2 ^ 2100 :=
        le_of_mul_le_mul_right (by
          calc 2 ^ (52 + e) * q ≤ 2 ^ 2100 * q := h2) hq
      have := (Nat.pow_le_pow_iff_right (by omega : 1 < 2)).mp h3
      omega
    have hM53 : M ≤ 2 ^ 53 := by
      have h3 : (2 * M) * (q * 2 ^ e) ≤ (2 * 2 ^ 53 + 1) * (q * 2 ^ e) := by
        calc (2 * M) * (q * 2 ^ e) = 2 * M * (q * 2 ^ e) := by ring
        _ ≤ 2 * (p * 2 ^ 1100) + q * 2 ^ e := hup
        _ ≤ 2 * (2 ^ 53 * (q * 2 ^ e)) + q * 2 ^ e := by omega
        _ = (2 * 2 ^ 53 + 1) * (q * 2 ^ e) := by ring
      have h4 : 2 * M ≤ 2 * 2 ^ 53 + 1 :=
        le_of_mul_le_mul_right h3 (by positivity)
      omega
    have hpe2 : (2 : ℕ) ^ e ≤ 2 ^ 2048 := Nat.pow_le_pow_right (by omega) he48
    calc M * 2 ^ e ≤ 2 ^ 53 * 2 ^ 2048 := Nat.mul_le_mul hM53 hpe2
    _ = 2 ^ 2101 := by rw [← pow_add]
    _ < 2 ^ 1024 * 2 ^ 1100 := by
          rw [show (2 : ℕ) ^ 1024 * 2 ^ 1100 = 2 ^ 2124 by rw [← pow_add]]
          exact (Nat.pow_lt_pow_iff_right (by omega : 1 < 2)).mpr (by omega)
  refine ⟨M * 2 ^ e, ?_, hmain⟩
  unfold rtne
  rw [if_neg (by omega : ¬ p = 0), ← he, ← hM, if_neg hov]

/-- Unfolding the minimum-value gate once the string has been parsed and
the decimal value rounded to binary64. -/
theorem skipCheck_of_parse (cs : List Char) (m : Nat) (d : DecVal) (s : Nat × Nat)
    (h : parseFloatDec cs = some d) (h2 : rtne d.mant (10 ^ d.scale) = some s) :
    skipCheck cs m = f64Lt s (uint64ToF64 m) := by
  unfold skipCheck parseFloatF64
  rw [h]
  show (match rtne d.mant (10 ^ d.scale) with
    | none => true
    | some sum_tx => f64Lt sum_tx (uint64ToF64 m)) = f64Lt s (uint64ToF64 m)
  rw [h2]

set_option maxRecDepth 16000 in
/-- The minimum-value gate in terms of the rounded coefficient, on the
range where binary64 rounding cannot disturb the comparison: a value is
skipped exactly when its rounded 5-decimal coefficient is below
`minETH * 10 ^ 5`. -/
theorem whaleMinValueSkip_iff (v m : Nat) (hm : 0 < m) (hmB : m ≤ 2 ^ 36)
    (hvB : v < 10 ^ 300) :
    whaleMinValueSkip v m = true ↔ round5Scaled v < m * 10 ^ 5 := by
  obtain ⟨d, hd, hscale, hmant⟩ := parseFloatDec_renderScaled5 (round5Scaled v)
  have hd2 : parseFloatDec (gweiToETH v).data = some d := hd
  have hm53 : m < 2 ^ 53 := by
    calc m ≤ 2 ^ 36 := hmB
    _ < 2 ^ 53 := by norm_num
  have hmf : uint64ToF64 m = (m * 2 ^ 1100, 2 ^ 1100) := uint64ToF64_exact m hm hm53
  have hqpos : 0 < 10 ^ d.scale := by positivity
  have hqB : (10 : ℕ) ^ d.scale ≤ 10 ^ 5 := Nat.pow_le_pow_right (by omega) hscale
  have hk : 0 < 10 ^ (5 - d.scale) := by positivity
  have hps : (10 : ℕ) ^ d.scale * 10 ^ (5 - d.scale) = 10 ^ 5 := by
    rw [← pow_add]
    congr 1
    omega
  have hnB : round5Scaled v ≤ 2 ^ 1000 := by
    unfold round5Scaled
    have e13 : (10 : ℕ) ^ 13 = 10000000000000 := by norm_num
    have e12 : (10 : ℕ) ^ 12 = 1000000000000 := by norm_num
    have h300 : (10 : ℕ) ^ 300 ≤ 2 ^ 1000 := by norm_num
    rw [e13, e12]
    omega
  have hmantB : d.mant ≤ 2 ^ 1000 := by
    have hk1 : 1 ≤ 10 ^ (5 - d.scale) := hk
    have h1 : d.mant * 1 ≤ d.mant * 10 ^ (5 - d.scale) :=
      Nat.mul_le_mul (Nat.le_refl d.mant) hk1
    rw [mul_one, hmant] at h1
    omega
  unfold whaleMinValueSkip
  constructor
  · intro hskip
    by_contra hc
    push_neg at hc
    have hge : m * 10 ^ d.scale ≤ d.mant := by
      by_contra hc2
      push_neg at hc2
      have h1 : (d.mant + 1) * 10 ^ (5 - d.scale) ≤
          m * 10 ^ d.scale * 10 ^ (5 - d.scale) :=
        Nat.mul_le_mul (by omega) (Nat.le_refl (10 ^ (5 - d.scale)))
      rw [mul_assoc, hps] at h1
      have hexp : (d.mant + 1) * 10 ^ (5 - d.scale) =
          d.mant * 10 ^ (5 - d.scale) + 10 ^ (5 - d.scale) := by ring
      rw [hexp, hmant] at h1
      omega
    have hmant0 : 0 < d.mant := by
      have h0 : 0 < m * 10 ^ d.scale := by positivity
      omega
    have hpB : d.mant ≤ 2 ^ 1000 * 10 ^ d.scale := by
      have hq1 : 1 ≤ 10 ^ d.scale := hqpos
      have h1 : 2 ^ 1000 * 1 ≤ 2 ^ 1000 * 10 ^ d.scale :=
        Nat.mul_le_mul (Nat.le_refl (2 ^ 1000)) hq1
      rw [mul_one] at h1
      omega
    obtain ⟨N, hsome, hNge⟩ := rtne_ge_int d.mant (10 ^ d.scale) m hmant0 hqpos hqB
      hm hm53 hge hpB
    rw [skipCheck_of_parse (gweiToETH v).data m d (N, 2 ^ 1100) hd2 hsome, hmf] at hskip
    unfold f64Lt at hskip
    simp only [decide_eq_true_eq] at hskip
    have hlt : N < m * 2 ^ 1100 := lt_of_mul_lt_mul_right hskip (Nat.zero_le _)
    omega
  · intro hlt
    have hplt : d.mant < m * 10 ^ d.scale := by
      by_contra hc2
      push_neg at hc2
      have h1 := Nat.mul_le_mul hc2 (Nat.le_refl (10 ^ (5 - d.scale)))
      rw [mul_assoc, hps, hmant] at h1
      omega
    by_cases hmant0 : d.mant = 0
    · have hz : rtne d.mant (10 ^ d.scale) = some (0, 2 ^ 1100) := by
        rw [hmant0]
        unfold rtne
        rw [if_pos rfl]
      rw [skipCheck_of_parse (gweiToETH v).data m d (0, 2 ^ 1100) hd2 hz, hmf]
      unfold f64Lt
      simp only [decide_eq_true_eq]
      rw [zero_mul]
      positivity
    · obtain ⟨N, hsome, hNlt⟩ := rtne_lt_int d.mant (10 ^ d.scale) m
        (Nat.pos_of_ne_zero hmant0) hqpos hqB hmB hplt
      rw [skipCheck_of_parse (gweiToETH v).data m d (N, 2 ^ 1100) hd2 hsome, hmf]
      unfold f64Lt
      simp only [decide_eq_true_eq]
      exact mul_lt_mul_of_pos_right hNlt (by positivity)

/-- The spec-worded rounding equals the embedded shopspring coefficient. -/
theorem ethRoundedHalfUp5_eq (v : Nat) :
    ethRoundedHalfUp5 v = (round5Scaled v : ℚ) / 10 ^ 5 := by
  have hfloor : ⌊(v : ℚ) / 10 ^ 13 + 1 / 2⌋₊ = round5Scaled v := by
    have hrw : (v : ℚ) / 10 ^ 13 + 1 / 2 =
        ((2 * v + 10 ^ 13 : ℕ) : ℚ) / ((2 * 10 ^ 13 : ℕ) : ℚ) := by
      push_cast
      ring
    rw [hrw, Nat.floor_div_nat, Nat.floor_natCast]
    unfold round5Scaled
    have e13 : (10 : ℕ) ^ 13 = 10000000000000 := by norm_num
    have e12 : (10 : ℕ) ^ 12 = 1000000000000 := by norm_num
    rw [e13, e12]
    omega
  unfold ethRoundedHalfUp5
  rw [hfloor]

/-- The gate against the claim's rational formulation, on the range where
binary64 rounding cannot disturb the comparison. -/
theorem whaleMinValueSkip_iff_rounded (v m : Nat) (hm : 0 < m) (hmB : m ≤ 2 ^ 36)
    (hvB : v < 10 ^ 300) :
    whaleMinValueSkip v m = true ↔ ethRoundedHalfUp5 v < (m : ℚ) := by
  rw [whaleMinValueSkip_iff v m hm hmB hvB, ethRoundedHalfUp5_eq]
  rw [div_lt_iff₀ (by norm_num : (0 : ℚ) < 10 ^ 5)]
  constructor
  · intro h
    exact_mod_cast h
  · intro h
    exact_mod_cast h

theorem atoiUint64_digits (cs : List Char) (hne : cs ≠ [])
    (hd : ∀ c ∈ cs, isDigitChar c = true) (hle : valBE cs ≤ 2 ^ 63 - 1) :
    atoiUint64 cs = some (valBE cs) := by
  match cs, hne with
  | c :: rest, _ =>
    have hc := digit_ne_special (hd c (by simp))
    rw [atoiUint64, if_neg hc.2.1, if_neg hc.2.2.1]
    rw [parseNatChars_digits _ (by simp) hd]
    show (if valBE (c :: rest) ≤ 2 ^ 63 - 1 then some (valBE (c :: rest)) else none) =
      some (valBE (c :: rest))
    rw [if_pos hle]

theorem splitOnNL_no_nl (cs : List Char) (h : '\n' ∉ cs) :
    splitOnNL cs = [cs] := by
  induction cs with
  | nil => rfl
  | cons c cs ih =>
    have hc : c ≠ '\n' := fun hc => h (by simp [hc])
    rw [splitOnNL, if_neg (by simpa using hc)]
    rw [ih (fun hm => h (by simp [hm]))]

theorem scanLines_digits (cs : List Char) (hne : cs ≠ [])
    (hd : ∀ c ∈ cs, isDigitChar c = true) : scanLines cs = [cs] := by
  have hnl : '\n' ∉ cs := fun hm => (digit_ne_special (hd _ hm)).2.2.2.1 rfl
  have hcr : dropCR cs = cs := by
    unfold dropCR
    have hgl : cs.getLast hne ∈ cs := List.getLast_mem hne
    have hrr := (digit_ne_special (hd _ hgl)).2.2.2.2
    rw [List.getLast?_eq_getLast cs hne, if_neg (by simpa using hrr)]
  unfold scanLines
  rw [splitOnNL_no_nl cs hnl]
  show List.map dropCR (if [cs].getLast? = some [] then [cs].dropLast else [cs]) = [cs]
  rw [if_neg (by simpa using hne)]
  simp [hcr]

theorem ReadLastBlock_digits (cs : List Char) (hne : cs ≠ [])
    (hd : ∀ c ∈ cs, isDigitChar c = true) (hle : valBE cs ≤ 2 ^ 63 - 1) :
    ReadLastBlock cs = valBE cs := by
  unfold ReadLastBlock
  rw [scanLines_digits cs hne hd]
  rw [List.filterMap_cons]
  rw [atoiUint64_digits cs hne hd hle]
  rfl

theorem valBE_digitsBE_append (b : Nat) (rest : List Char) :
    valBE (digitsBE b ++ rest) = b * 10 ^ rest.length + valBE rest := by
  unfold valBE
  rw [List.foldl_append]
  have hval : (digitsBE b).foldl valStep 0 = b := valBE_digitsBE b
  rw [hval, foldl_valStep_shift]

/-- Claim C4 (amended): for minimum values up to `2 ^ 36` and raw wei
values below `10 ^ 300` — the range in which the binary64 comparison of
the source can neither mask the `10 ^ (-5)` rounding step nor overflow —
a transaction is skipped by the minimum-value gate if and only if its raw
wei value, divided by `10 ^ 18` and rounded half-up to 5 decimal places,
is strictly less than the configured minimum; consequently the raw value
`minETH * 10 ^ 18 - 1`, which lies strictly below `minETH * 10 ^ 18`,
passes the gate because its rounded representation equals `minETH`.
Outside that range the unrestricted equivalence fails; see
`C4_float64_counterexample`. -/
theorem C4_min_value_gate_on_rounded (v m : Nat) (hm : 0 < m)
    (hmB : m ≤ 2 ^ 36) (hvB : v < 10 ^ 300) :
    (whaleMinValueSkip v m = true ↔ ethRoundedHalfUp5 v < (m : ℚ)) ∧
    whaleMinValueSkip (m * 10 ^ 18 - 1) m = false ∧
    m * 10 ^ 18 - 1 < m * 10 ^ 18 := by
  refine ⟨whaleMinValueSkip_iff_rounded v m hm hmB hvB, ?_, ?_⟩
  · have h : round5Scaled (m * 10 ^ 18 - 1) = m * 10 ^ 5 := by
      unfold round5Scaled
      have e18 : (10 : ℕ) ^ 18 = 1000000000000000000 := by norm_num
      have e13 : (10 : ℕ) ^ 13 = 10000000000000 := by norm_num
      have e12 : (10 : ℕ) ^ 12 = 1000000000000 := by norm_num
      have e5 : (10 : ℕ) ^ 5 = 100000 := by norm_num
      rw [e18, e13, e12, e5]
      omega
    have hvB2 : m * 10 ^ 18 - 1 < 10 ^ 300 := by
      have h1 : m * 10 ^ 18 ≤ 2 ^ 36 * 10 ^ 18 := Nat.mul_le_mul hmB (Nat.le_refl _)
      have h2 : (2 : ℕ) ^ 36 * 10 ^ 18 < 10 ^ 300 := by norm_num
      omega
    have hiff := whaleMinValueSkip_iff (m * 10 ^ 18 - 1) m hm hmB hvB2
    rw [h] at hiff
    cases hb : whaleMinValueSkip (m * 10 ^ 18 - 1) m with
    | false => rfl
    | true => exact absurd (hiff.mp hb) (lt_irrefl _)
  · have hpos : 0 < m * 10 ^ 18 := by positivity
    omega

/-- Witness for C4 at `minETH = 1`: the raw value `10 ^ 18 - 1`
(0.999999999999999999 ETH) passes the 1-ETH gate. -/
theorem C4_min_value_gate_on_rounded_witness :
    0 < 1 ∧ (1 : Nat) ≤ 2 ^ 36 ∧ (0 : Nat) < 10 ^ 300 ∧
    whaleMinValueSkip (1 * 10 ^ 18 - 1) 1 = false :=
  ⟨by decide, by decide, by positivity,
    (C4_min_value_gate_on_rounded 0 1 (by decide) (by decide) (by positivity)).2.1⟩

set_option maxRecDepth 16000 in
/-- Counterexample to the unrestricted claim: at `minETH = 2 ^ 60` the raw
value `2 ^ 60 * 10 ^ 18 - 10 ^ 13` rounds half-up to
`2 ^ 60 - 10 ^ (-5)` ETH, strictly below the minimum, yet
`strconv.ParseFloat` rounds the rendered string
`"1152921504606846975.99999"` up to exactly `2 ^ 60` (the gap is below
half an ulp at that magnitude), so the source's float64 comparison does
not skip the transaction. -/
theorem C4_float64_counterexample :
    ethRoundedHalfUp5 (2 ^ 60 * 10 ^ 18 - 10 ^ 13) < ((2 ^ 60 : Nat) : ℚ) ∧
    whaleMinValueSkip (2 ^ 60 * 10 ^ 18 - 10 ^ 13) (2 ^ 60) = false := by
  constructor
  · rw [ethRoundedHalfUp5_eq]
    rw [div_lt_iff₀ (by norm_num : (0 : ℚ) < 10 ^ 5)]
    have h1 : round5Scaled (2 ^ 60 * 10 ^ 18 - 10 ^ 13) = 2 ^ 60 * 10 ^ 5 - 1 := by
      norm_num [round5Scaled]
    rw [h1]
    norm_num
  · decide

/-- Claim C6: `gweiToETH` is deterministic, and satisfies the fixed points
`gweiToETH (10 ^ 18) = "1"`, `gweiToETH 0 = "0"` and the round-half-up
boundary `gweiToETH 1234567890123456789 = "1.23457"`. -/
theorem C6_gweiToETH_fixed_points :
    (∀ v : Nat, gweiToETH v = gweiToETH v) ∧
    gweiToETH (10 ^ 18) = "1" ∧ gweiToETH 0 = "0" ∧
    gweiToETH 1234567890123456789 = "1.23457" :=
  ⟨fun _ => rfl, by decide, by decide, by decide⟩

/-- Counterexample to claim C9 as stated: writing `b = 0` (one digit) over
previous content `"10"` (two digits) leaves `"00"` in the file, yet
`ReadLastBlock` still returns `0 = b` — so the round trip can return `b`
even when `b`'s decimal representation is shorter than the previous
content, and the value read back is neither different from nor larger
than `b`. -/
theorem C9_zero_over_longer_content :
    ReadLastBlock (WriteLastBlock ['1', '0'] 0) = 0 ∧
    (natChars 0).length < (['1', '0'] : List Char).length := by
  constructor
  · decide
  · decide

/-- Claim C9 (amended): `WriteLastBlock` does not truncate, so the round
trip returns `b` whenever `b`'s decimal representation is at least as long
as the previous content; over longer all-digit previous content the stale
trailing digits survive, and for `b > 0` the value read back is strictly
larger than `b` (for `b = 0` the stale digits can still read back as `0`).
The bounds keep `Atoi`'s 64-bit range check satisfied. -/
theorem C9_watermark_roundtrip (prev : List Char) (b : Nat) (hb : b ≤ 2 ^ 63 - 1) :
    (prev.length ≤ (natChars b).length → ReadLastBlock (WriteLastBlock prev b) = b) ∧
    ((∀ c ∈ prev, isDigitChar c = true) → (natChars b).length < prev.length →
      0 < b → prev.length ≤ 18 → b < ReadLastBlock (WriteLastBlock prev b)) := by
  rw [natChars_eq_digitsBE]
  constructor
  · intro hlen
    unfold WriteLastBlock
    rw [natChars_eq_digitsBE, List.drop_eq_nil_of_le hlen, List.append_nil]
    rw [ReadLastBlock_digits _ (digitsBE_ne_nil b) (digitsBE_all_digits b)
      (by rw [valBE_digitsBE]; exact hb)]
    exact valBE_digitsBE b
  · intro hdig hlen hpos hlen18
    unfold WriteLastBlock
    rw [natChars_eq_digitsBE]
    set stale := prev.drop (digitsBE b).length with hstale
    have hsl : stale.length = prev.length - (digitsBE b).length := List.length_drop _ _
    have hsne : stale ≠ [] := by
      have : 0 < stale.length := by omega
      exact List.ne_nil_of_length_pos this
    have hsd : ∀ c ∈ stale, isDigitChar c = true :=
      fun c hc => hdig c (List.drop_subset _ _ hc)
    have hcd : ∀ c ∈ digitsBE b ++ stale, isDigitChar c = true := by
      intro c hc
      rcases List.mem_append.mp hc with h1 | h2
      · exact digitsBE_all_digits b c h1
      · exact hsd c h2
    have hcne : digitsBE b ++ stale ≠ [] := by
      simp [digitsBE_ne_nil b]
    have hval : valBE (digitsBE b ++ stale) = b * 10 ^ stale.length + valBE stale :=
      valBE_digitsBE_append b stale
    have hvlt : valBE (digitsBE b ++ stale) < 10 ^ 18 := by
      rw [hval]
      have hb10 : b < 10 ^ (digitsBE b).length := lt_pow_digitsBE_length b
      have hs10 : valBE stale < 10 ^ stale.length := valBE_lt stale hsd
      calc b * 10 ^ stale.length + valBE stale
          < b * 10 ^ stale.length + 10 ^ stale.length := by omega
      _ = (b + 1) * 10 ^ stale.length := by ring
      _ ≤ 10 ^ (digitsBE b).length * 10 ^ stale.length :=
          Nat.mul_le_mul_right _ (by omega)
      _ = 10 ^ ((digitsBE b).length + stale.length) := (pow_add 10 _ _).symm
      _ ≤ 10 ^ 18 := Nat.pow_le_pow_right (by omega) (by omega)
    have hbound : valBE (digitsBE b ++ stale) ≤ 2 ^ 63 - 1 := by
      have h18 : (10 : ℕ) ^ 18 ≤ 2 ^ 63 - 1 := by norm_num
      omega
    rw [ReadLastBlock_digits _ hcne hcd hbound, hval]
    have h10 : (10 : ℕ) ≤ 10 ^ stale.length := by
      calc (10 : ℕ) = 10 ^ 1 := by norm_num
      _ ≤ 10 ^ stale.length := Nat.pow_le_pow_right (by omega) (by omega)
    calc b < b * 10 := by omega
    _ ≤ b * 10 ^ stale.length := Nat.mul_le_mul_left _ h10
    _ ≤ b * 10 ^ stale.length + valBE stale := Nat.le_add_right _ _

/-- Witness for C9 (amended): writing `12` over `"7"` reads back `12`;
writing `2` over `"100"` reads back a value strictly greater than `2`. -/
theorem C9_watermark_roundtrip_witness :
    ReadLastBlock (WriteLastBlock ['7'] 12) = 12 ∧
    2 < ReadLastBlock (WriteLastBlock ['1', '0', '0'] 2) :=
  ⟨(C9_watermark_roundtrip ['7'] 12 (by decide)).1 (by decide),
   (C9_watermark_roundtrip ['1', '0', '0'] 2 (by decide)).2 (by decide) (by decide)
     (by decide) (by decide)⟩

/-- Claim C3: for a transaction passing the minimum-value gate, the whale
filter emits exactly one record when sender or recipient is watched
(direction `FROM` if only the sender is watched, `TO` if only the
recipient, `INT` if both) and zero records otherwise; a contract-creation
transaction (`To = none`) with a watched sender yields exactly one `FROM`
record and never a `TO` record.  "Watched" is membership of the
lower-cased address in the watch map. -/
theorem C3_whale_filter_directions (whales : List (String × String)) (minETH : Nat)
    (txn : ParsedTransaction)
    (hgate : whaleMinValueSkip txn.Value minETH = false) :
    ((lookupAddr whales (lowerStr txn.From)).isSome = true ∧
        (txn.To.bind (fun t => lookupAddr whales (lowerStr t))).isSome = false →
      (parseWhaleTx whales minETH txn).map (fun r => r.Direction) = ["FROM"]) ∧
    ((lookupAddr whales (lowerStr txn.From)).isSome = false ∧
        (txn.To.bind (fun t => lookupAddr whales (lowerStr t))).isSome = true →
      (parseWhaleTx whales minETH txn).map (fun r => r.Direction) = ["TO"]) ∧
    ((lookupAddr whales (lowerStr txn.From)).isSome = true ∧
        (txn.To.bind (fun t => lookupAddr whales (lowerStr t))).isSome = true →
      (parseWhaleTx whales minETH txn).map (fun r => r.Direction) = ["INT"]) ∧
    ((lookupAddr whales (lowerStr txn.From)).isSome = false ∧
        (txn.To.bind (fun t => lookupAddr whales (lowerStr t))).isSome = false →
      parseWhaleTx whales minETH txn = []) ∧
    (txn.To = none ∧ (lookupAddr whales (lowerStr txn.From)).isSome = true →
      (parseWhaleTx whales minETH txn).map (fun r => r.Direction) = ["FROM"] ∧
      ∀ r ∈ parseWhaleTx whales minETH txn, r.Direction ≠ "TO") := by
  cases hF : lookupAddr whales (lowerStr txn.From) with
  | none =>
    cases hT : txn.To with
    | none => simp [parseWhaleTx, hgate, hF, hT]
    | some t =>
      cases hTT : lookupAddr whales (lowerStr t) with
      | none => simp [parseWhaleTx, hgate, hF, hT, hTT]
      | some w => simp [parseWhaleTx, hgate, hF, hT, hTT]
  | some wf =>
    cases hT : txn.To with
    | none => simp [parseWhaleTx, hgate, hF, hT]
    | some t =>
      cases hTT : lookupAddr whales (lowerStr t) with
      | none => simp [parseWhaleTx, hgate, hF, hT, hTT]
      | some w => simp [parseWhaleTx, hgate, hF, hT, hTT]

set_option maxRecDepth 16000 in
/-- Witness for C3: a watched sender, 2 ETH, contract creation: exactly one
`FROM` record. -/
theorem C3_whale_filter_directions_witness :
    (parseWhaleTx [("0xaaa", "A")] 1
        { From := "0xAAA", To := none, Value := 2 * 10 ^ 18 }).map
      (fun r => r.Direction) = ["FROM"] :=
  (C3_whale_filter_directions [("0xaaa", "A")] 1
      { From := "0xAAA", To := none, Value := 2 * 10 ^ 18 } (by decide)).1
    ⟨by decide, by decide⟩

/-- Claim C5: whenever `watermark < latest` and `latest - watermark >
maxDelta`, the computed fetch start equals `latest - maxDelta`; in the
boundary case `latest - watermark = maxDelta + 1` the clamp condition does
not fire, yet `watermark + 1` already equals `latest - maxDelta`. -/
theorem C5_catchup_clamp (watermark latest maxDelta : Nat)
    (hw : watermark < latest) (hgap : maxDelta < latest - watermark)
    (hlat : latest < U64MOD) :
    computeStartBlock watermark latest maxDelta = latest - maxDelta ∧
    (latest - watermark = maxDelta + 1 →
      ¬ maxDelta < wrapSub latest ((watermark + 1) % U64MOD)) := by
  have hU : U64MOD = 18446744073709551616 := by norm_num [U64MOD]
  rw [hU] at hlat
  simp only [computeStartBlock, wrapSub, hU]
  constructor
  · split
    · omega
    · omega
  · intro hEq
    omega

/-- Witness for C5: watermark 10, latest 100, maxDelta 50 clamps to 50. -/
theorem C5_catchup_clamp_witness :
    computeStartBlock 10 100 50 = 50 :=
  (C5_catchup_clamp 10 100 50 (by decide) (by decide) (by decide)).1

/-- Claim C10: when the stored watermark is at least the latest block,
`startBlock = watermark + 1 > latest` and the `uint64` subtraction
`endBlock - startBlock` wraps to a value exceeding `maxDelta`, so the
clamp fires and the computed start is `latest - maxDelta` (the run
reprocesses the most recent window instead of fetching nothing). -/
theorem C10_wraparound_reprocess (watermark latest maxDelta : Nat)
    (hle : latest ≤ watermark) (hw : watermark + 1 < U64MOD)
    (hd : maxDelta ≤ latest) :
    maxDelta < wrapSub latest ((watermark + 1) % U64MOD) ∧
    computeStartBlock watermark latest maxDelta = latest - maxDelta := by
  have hU : U64MOD = 18446744073709551616 := by norm_num [U64MOD]
  rw [hU] at hw
  simp only [computeStartBlock, wrapSub, hU]
  constructor
  · omega
  · split
    · omega
    · omega

/-- Witness for C10: watermark 100, latest 90, maxDelta 50: the wrapped gap
exceeds 50 and the start clamps to 40. -/
theorem C10_wraparound_reprocess_witness :
    computeStartBlock 100 90 50 = 90 - 50 :=
  (C10_wraparound_reprocess 100 90 50 (by decide) (by decide) (by decide)).2

/-- Claim C1, behaviour of the code at the failing input: a run over block
6 with stored watermark 5 whose database batch insert fails (`sinkOk =
false`) terminates fatally, yet the watermark file already reads 6 — the
watermark write (main.go:203) precedes persistence (main.go:212), so a
persistence failure does not leave the stored watermark unchanged. -/
theorem C1_watermark_written_despite_sink_failure :
    (mainPersistPhase { lastBlockFile := ['5'], csvFile := "" } [{ Number := 6 }]
        (List.cons_ne_nil _ _) [] 1 "" false).2 = true ∧
    ReadLastBlock (mainPersistPhase { lastBlockFile := ['5'], csvFile := "" }
        [{ Number := 6 }] (List.cons_ne_nil _ _) [] 1 "" false).1.lastBlockFile = 6 ∧
    ReadLastBlock ['5'] = 5 := by
  refine ⟨rfl, by decide, by decide⟩

/-- Claim C2, behaviour of the code at the failing input: for the collected
(completion-ordered) block list `[block 10, block 9]` the source persists
`blocks[len-1].Number = 9` as "last block parsed", although the maximum
fetched block number is 10; the watermark file written by the run tail
accordingly reads 9. -/
theorem C2_last_element_not_max :
    lastBlockParsed [{ Number := 10 }, { Number := 9 }] (List.cons_ne_nil _ _) = 9 ∧
    specMaxBlockNumber [{ Number := 10 }, { Number := 9 }] = 10 ∧
    ReadLastBlock (mainPersistPhase { lastBlockFile := ['1'], csvFile := "" }
        [{ Number := 10 }, { Number := 9 }] (List.cons_ne_nil _ _) [] 1 ""
        true).1.lastBlockFile = 9 := by
  refine ⟨rfl, rfl, by decide⟩

/-- Claim C7: with receipt-skipping enabled, a block whose transaction
count exceeds the threshold is normalized with zero receipt-batch calls,
no transaction is dropped, and every normalized transaction carries
gas-used 0 and the distinct status 2 ("receipt not fetched"), which
differs from the "failed" status 0. -/
theorem C7_large_block_receipt_skip (cfg : ParserConfig) (blk : RawBlock)
    (rb : List String → Except Unit (List (Option Receipt)))
    (hskip : cfg.SkipReceiptsOnLargeBlocks = true)
    (hbig : cfg.MaxTransactionsForReceipts < blk.Transactions.length) :
    (parseBlockTransactions cfg blk rb).2 = 0 ∧
    ∃ txs, (parseBlockTransactions cfg blk rb).1 = Except.ok txs ∧
      txs.length = blk.Transactions.length ∧
      ∀ tx ∈ txs, tx.GasUsed = 0 ∧ tx.Status = 2 ∧ tx.Status ≠ 0 := by
  unfold parseBlockTransactions
  rw [if_neg (by omega), if_pos ⟨hskip, hbig⟩]
  refine ⟨rfl, _, rfl, ?_, ?_⟩
  · simp
  · intro tx htx
    obtain ⟨p, _hp, hpe⟩ := List.mem_map.mp htx
    subst hpe
    exact ⟨rfl, rfl, by simp [parseTransactionWithoutReceipt]⟩

/-- Witness for C7: the default config (threshold 1, skipping enabled) on a
two-transaction block issues no receipt calls. -/
theorem C7_large_block_receipt_skip_witness :
    (parseBlockTransactions DefaultConfig { Transactions := [{}, {}] }
      (fun _ => Except.ok [])).2 = 0 :=
  (C7_large_block_receipt_skip DefaultConfig { Transactions := [{}, {}] }
    (fun _ => Except.ok []) (by decide) (by decide)).1

/-- Claim C8: `IncludeLogs` defaults to `false`, and with `IncludeLogs =
false` a block whose transaction count does not exceed the receipt
threshold normalizes to an empty transaction list (every transaction is
silently dropped), with zero receipt calls. -/
theorem C8_no_logs_drops_small_block_txs :
    DefaultConfig.IncludeLogs = false ∧
    ∀ (cfg : ParserConfig) (blk : RawBlock)
      (rb : List String → Except Unit (List (Option Receipt))),
      cfg.IncludeLogs = false →
      blk.Transactions.length ≤ cfg.MaxTransactionsForReceipts →
      (parseBlockTransactions cfg blk rb).1 = Except.ok [] ∧
      (parseBlockTransactions cfg blk rb).2 = 0 := by
  refine ⟨rfl, fun cfg blk rb hlogs hsmall => ?_⟩
  unfold parseBlockTransactions
  by_cases h0 : blk.Transactions.length = 0
  · rw [if_pos h0]
    exact ⟨rfl, rfl⟩
  · rw [if_neg h0, if_neg (by rintro ⟨-, h2⟩; omega),
      if_neg (by simp [hlogs])]
    exact ⟨rfl, rfl⟩

/-- Witness for C8: the default config on a one-transaction block yields an
empty normalized transaction list. -/
theorem C8_no_logs_drops_small_block_txs_witness :
    (parseBlockTransactions DefaultConfig { Transactions := [{}] }
      (fun _ => Except.ok [])).1 = Except.ok [] :=
  ((C8_no_logs_drops_small_block_txs).2 DefaultConfig { Transactions := [{}] }
    (fun _ => Except.ok []) (by decide) (by decide)).1

end EthParser
